import Mathlib

/-!
Verification development for the nitro repository: a shallow embedding of
`src/util/arbmath/math.go` and `src/arbstate/inbox.go`, with theorems about
the claims of the natural-language specification.

Machine integers are modelled as `Nat` (for `uint64`) and `Int` (for `int64`),
with explicit `% 2^64` wrapping wherever Go's arithmetic wraps.
-/

/-! ## Part A: arithmetic helpers from `src/util/arbmath/math.go` -/

def U64 : Nat := 2 ^ 64

def MaxUint64 : Nat := 2 ^ 64 - 1

def MaxInt64 : Int := 2 ^ 63 - 1

def MinInt64 : Int := -(2 ^ 63)

/-- Two's-complement wrapping of an unbounded integer into the `int64` range,
the semantics of Go's native `int64` arithmetic. -/
def wrap64 (x : Int) : Int := (x + 2 ^ 63) % 2 ^ 64 - 2 ^ 63

/-- `SaturatingAdd` from math.go: wrapping add, then detect sign inversion. -/
def SaturatingAdd (augend addend : Int) : Int :=
  let sum := wrap64 (augend + addend)
  let sum := if addend > 0 ∧ sum < augend then MaxInt64 else sum
  let sum := if addend < 0 ∧ sum > augend then MinInt64 else sum
  sum

/-- `SaturatingSub` from math.go: `SaturatingAdd(minuend, -subtrahend)`, where
the negation is Go's wrapping `int64` negation. -/
def SaturatingSub (minuend subtrahend : Int) : Int :=
  SaturatingAdd minuend (wrap64 (-subtrahend))

/-- `SaturatingUAdd` from math.go. -/
def SaturatingUAdd (augend addend : Nat) : Nat :=
  let sum := (augend + addend) % U64
  if sum < augend ∨ sum < addend then MaxUint64 else sum

/-- `SaturatingUMul` from math.go. -/
def SaturatingUMul (multiplicand multiplier : Nat) : Nat :=
  let product := multiplicand * multiplier % U64
  if multiplier ≠ 0 ∧ product / multiplier ≠ multiplicand then MaxUint64
  else product

/-- The ideal saturating subtraction described by the spec: the exact integer
difference clamped into `[MIN_I64, MAX_I64]`. -/
def specSaturatingSub (a b : Int) : Int := max MinInt64 (min MaxInt64 (a - b))

/-- The halving phase of `ApproxSquareRoot`:
`for SaturatingUMul(approx, approx)/2 > value { approx /= 2 }`. -/
def sqrtHalve (value a : Nat) : Nat :=
  if h : SaturatingUMul a a / 2 > value then sqrtHalve value (a / 2) else a
termination_by a
decreasing_by
  have ha : a ≠ 0 := by
    intro h0
    rw [h0] at h
    simp [SaturatingUMul] at h
  exact Nat.div_lt_self (Nat.pos_of_ne_zero ha) (by omega)

/-- One Newton iteration from `ApproxSquareRoot`'s `for i := 0; i < 4` loop. -/
def newtonStep (value a : Nat) : Nat :=
  if a > value / a then SaturatingUAdd (value / a) ((a - value / a) / 2)
  else SaturatingUAdd a ((value / a - a) / 2)

/-- `ApproxSquareRoot` from math.go: zero short-circuit, halving phase,
then exactly four Newton iterations. -/
def ApproxSquareRoot (value : Nat) : Nat :=
  if value = 0 then 0
  else
    let a0 := sqrtHalve value value
    newtonStep value (newtonStep value (newtonStep value (newtonStep value a0)))

/-- `bits.Len64`: the number of bits in the minimal binary representation. -/
def Len64 (value : Nat) : Nat := if value = 0 then 0 else Nat.log2 value + 1

/-- `bits.LeadingZeros64` for a `uint64` input. -/
def LeadingZeros64 (value : Nat) : Nat := 64 - Len64 value

/-- `Log2ceil` from math.go: `64 - bits.LeadingZeros64(value)`. -/
def Log2ceil (value : Nat) : Nat := 64 - LeadingZeros64 value

/-- `NextPowerOf2` from math.go: `1 << Log2ceil(value)` in `uint64`
arithmetic, so the shift wraps modulo `2^64`. -/
def NextPowerOf2 (value : Nat) : Nat := (1 <<< Log2ceil value) % U64

/-! ## Part B: bytes, big-endian encoding and RLP
(`encoding/binary` and the go-ethereum `rlp` package as used by inbox.go) -/

/-- The value of a big-endian byte string. -/
def beVal (bs : List Nat) : Nat := bs.foldl (fun acc b => acc * 256 + b) 0

/-- The `k`-byte big-endian encoding of `n` (`binary.BigEndian.PutUint64`
is `be 8`, `math.U256Bytes` of a `uint64` is `be 32`). -/
def be : Nat → Nat → List Nat
  | 0, _ => []
  | k + 1, n => be k (n / 256) ++ [n % 256]

/-- `binary.BigEndian.Uint64(data[i:i+8])`. -/
def sliceU64 (data : List Nat) (i : Nat) : Nat := beVal ((data.drop i).take 8)

/-- The minimal big-endian encoding of `n` (no leading zero; `[]` for 0),
used by RLP for lengths. -/
def beMin (n : Nat) : List Nat :=
  if h : n = 0 then [] else beMin (n / 256) ++ [n % 256]
decreasing_by exact Nat.div_lt_self (Nat.pos_of_ne_zero h) (by omega)

/-- RLP encoding of one byte string, as produced by go-ethereum `rlp`. -/
def rlpEncodeBytes (b : List Nat) : List Nat :=
  if b.length = 1 ∧ b.headD 0 ≤ 0x7f then b
  else if b.length ≤ 55 then (0x80 + b.length) :: b
  else (0xb7 + (beMin b.length).length) :: (beMin b.length ++ b)

/-- RLP encoding of a list of byte strings, as produced by
`rlp.EncodeToBytes` on a `[][]byte`. -/
def rlpEncodeList (items : List (List Nat)) : List Nat :=
  let payload := (items.map rlpEncodeBytes).flatten
  if payload.length ≤ 55 then (0xc0 + payload.length) :: payload
  else (0xf7 + (beMin payload.length).length) :: (beMin payload.length ++ payload)

/-- go-ethereum `Stream.Uint` on the byte string `b` (with the 16-byte input
limit used by inbox.go): decode a canonical RLP unsigned integer of at most
8 bytes from the front of `b`; trailing bytes are not an error.
Returns `none` exactly when the Go call returns a non-nil error. -/
def rlpDecodeUint (b : List Nat) : Option Nat :=
  match b with
  | [] => none
  | b0 :: rest =>
    if b0 ≤ 0x7f then some b0
    else if b0 ≤ 0xb7 then
      let size := b0 - 0x80
      if size > 8 then none
      else if rest.length < size then none
      else if size ≥ 2 ∧ rest.headD 0 = 0 then none
      else
        let v := beVal (rest.take size)
        if size > 0 ∧ v < 128 then none else some v
    else none

/-- Decode one RLP byte-string item from the front of the input, returning
the item and the remaining bytes, mirroring go-ethereum's canonical-form
checks; `none` on any decode error (including a nested list). -/
def decodeBytesItem (input : List Nat) : Option (List Nat × List Nat) :=
  match input with
  | [] => none
  | b :: rest =>
    if b ≤ 0x7f then some ([b], rest)
    else if b ≤ 0xb7 then
      let size := b - 0x80
      if rest.length < size then none
      else if size = 1 ∧ rest.headD 0 < 0x80 then none
      else some (rest.take size, rest.drop size)
    else if b ≤ 0xbf then
      let lenOfLen := b - 0xb7
      if rest.length < lenOfLen then none
      else if (rest.take lenOfLen).headD 0 = 0 then none
      else
        let size := beVal (rest.take lenOfLen)
        if size < 56 then none
        else if (rest.drop lenOfLen).length < size then none
        else some ((rest.drop lenOfLen).take size, (rest.drop lenOfLen).drop size)
    else none

/-- Decode a sequence of RLP byte-string items consuming the whole input.
`fuel` bounds the number of items; each item consumes at least one byte, so
`fuel = input.length` always suffices. -/
def decodeItems : Nat → List Nat → Option (List (List Nat))
  | _, [] => some []
  | 0, _ :: _ => none
  | fuel + 1, input =>
    match decodeBytesItem input with
    | none => none
    | some (item, rest) => (decodeItems fuel rest).map (item :: ·)

/-- go-ethereum `Stream.Decode` into a `[][]byte`: the input must start with
an RLP list whose payload is a sequence of byte strings; trailing bytes after
the list are not consumed and not an error. -/
def rlpDecodeByteStringList (input : List Nat) : Option (List (List Nat)) :=
  match input with
  | [] => none
  | b :: rest =>
    if b < 0xc0 then none
    else if b ≤ 0xf7 then
      let size := b - 0xc0
      if rest.length < size then none
      else decodeItems size (rest.take size)
    else
      let lenOfLen := b - 0xf7
      if rest.length < lenOfLen then none
      else if (rest.take lenOfLen).headD 0 = 0 then none
      else
        let size := beVal (rest.take lenOfLen)
        if size < 56 then none
        else if (rest.drop lenOfLen).length < size then none
        else decodeItems size ((rest.drop lenOfLen).take size)

/-! ## Part C: the sequencer batch codec from `src/arbstate/inbox.go`

Brotli is an external library; the codec is parametrized by the
decompression (for `parseSequencerMessage`) and compression (for `Encode`)
functions, exactly as inbox.go treats brotli as a black-box byte
transformer.  A brotli stream that fails mid-read makes the RLP decode
fail, which is the `rlpDecodeByteStringList _ = none` case below. -/

def maxDecompressedLen : Nat := 1024 * 1024 * 16

structure SeqMessage where
  minTimestamp : Nat
  maxTimestamp : Nat
  minL1Block : Nat
  maxL1Block : Nat
  afterDelayedMessages : Nat
  segments : List (List Nat)
deriving DecidableEq, Repr

/-- `parseSequencerMessage` from inbox.go.  `none` models the panic on an
input shorter than the 40-byte L1 header.  A failed segment decode yields an
empty segment list, not an error. -/
def parseSequencerMessage (decompress : List Nat → List Nat)
    (data : List Nat) : Option SeqMessage :=
  if data.length < 40 then none
  else some {
    minTimestamp := sliceU64 data 0
    maxTimestamp := sliceU64 data 8
    minL1Block := sliceU64 data 16
    maxL1Block := sliceU64 data 24
    afterDelayedMessages := sliceU64 data 32
    segments :=
      (rlpDecodeByteStringList
        ((decompress (data.drop 40)).take maxDecompressedLen)).getD [] }

/-- `sequencerMessage.Encode` from inbox.go: 40-byte big-endian header,
then the compressed RLP encoding of the segment list. -/
def SeqMessage.Encode (compress : List Nat → List Nat) (m : SeqMessage) :
    List Nat :=
  be 8 m.minTimestamp ++ be 8 m.maxTimestamp ++ be 8 m.minL1Block ++
    be 8 m.maxL1Block ++ be 8 m.afterDelayedMessages ++
    compress (rlpEncodeList m.segments)

/-! ## Part D: the inbox multiplexer state machine from `src/arbstate/inbox.go` -/

/-- `common.HexToAddress("0xA4B000000000000000000073657175656e636572")`. -/
def SequencerAddress : List Nat :=
  [0xa4, 0xb0, 0, 0, 0, 0, 0, 0, 0, 0,
   0x73, 0x65, 0x71, 0x75, 0x65, 0x6e, 0x63, 0x65, 0x72]

/-- Modelled from the spec: the `arbos.L1MessageType_L2Message` kind
discriminator lives in the external arbos package (not under src/); the spec
only names it, so its numeric value is opaque to the claims and fixed here. -/
def L1MessageType_L2Message : Nat := 3

/-- Modelled from the spec: the `arbos.L2MessageKind_SignedTx` marker lives
in the external arbos package (not under src/); the spec calls it "the
signed-tx marker" without a value, fixed here. -/
def L2MessageKind_SignedTx : Nat := 4

structure L1IncomingMessageHeader where
  kind : Nat
  sender : List Nat
  blockNumber : List Nat
  timestamp : List Nat
  requestId : List Nat
  gasPriceL1 : List Nat
deriving DecidableEq, Repr

/-- A message yielded by the multiplexer: either the `L1IncomingMessage`
synthesized for an L2 segment, or the result of the external
`arbos.ParseIncomingL1Message` on a delayed message, represented by the raw
bytes handed to that external parser. -/
inductive IncomingMessage where
  | l2 (header : L1IncomingMessageHeader) (l2msg : List Nat)
  | delayedParsed (raw : List Nat)
deriving DecidableEq, Repr

structure MessageWithMetadata where
  message : IncomingMessage
  mustEndBlock : Bool
  delayedMessagesRead : Nat
deriving DecidableEq, Repr

inductive PeekError where
  | endOfSequencerMessage
  | emptySegment
  | badDelayedCount
  | rlpUintError
  | badSegmentKind (k : Nat)
deriving DecidableEq, Repr

deriving instance DecidableEq for Except

inductive AdvanceAction where
  | unknown
  | delayedMessage
  | segment
  | message
deriving DecidableEq, Repr

structure MuxState where
  delayedMessagesRead : Nat
  advanceAction : AdvanceAction
  advanceSegmentTo : Nat
  cache : Option SeqMessage
  cachePosition : Nat
deriving DecidableEq, Repr

/-- `NewInboxMultiplexer`: fresh state with the given read count. -/
def initialMux (delayedMessagesRead : Nat) : MuxState :=
  { delayedMessagesRead := delayedMessagesRead
    advanceAction := .unknown
    advanceSegmentTo := 0
    cache := none
    cachePosition := 0 }

/-- A concrete model of the `InboxBackend` interface: a list of raw batches
indexed by the sequencer position, a segment cursor, and the delayed inbox
as a list of raw messages.  `AdvanceSequencerInbox` resets the segment
cursor, as the backend contract requires. -/
structure Backend where
  batches : List (List Nat)
  seqPosition : Nat
  posWithinMessage : Nat
  delayed : List (List Nat)
deriving DecidableEq, Repr

/-- Phase 1 of `Peek`: the leading-timing-segment loop.  `fuel` bounds the
number of loop iterations; the loop body either increments `segmentNum`,
exits, or — when RLP decoding of a timing segment fails — `continue`s with
`segmentNum` unchanged, in which case the loop never exits and every fuel
value returns `none`.  Timestamp and block-number deltas accumulate with
`uint64` wrapping.  Returns `(segmentNum, timestamp, blockNumber)`. -/
def phase1 (segments : List (List Nat)) :
    Nat → Nat → Nat → Nat → Option (Nat × Nat × Nat)
  | 0, _, _, _ => none
  | fuel + 1, segmentNum, timestamp, blockNumber =>
    if segmentNum ≥ segments.length then some (segmentNum, timestamp, blockNumber)
    else
      let segment := segments.getD segmentNum []
      if segment.length = 0 then
        phase1 segments fuel (segmentNum + 1) timestamp blockNumber
      else
        let segmentKind := segment.headD 0
        if segmentKind = 2 ∨ segmentKind = 3 then
          match rlpDecodeUint (segment.drop 1) with
          | none => phase1 segments fuel segmentNum timestamp blockNumber
          | some advancing =>
            if segmentKind = 2 then
              phase1 segments fuel (segmentNum + 1)
                ((timestamp + advancing) % U64) blockNumber
            else
              phase1 segments fuel (segmentNum + 1) timestamp
                ((blockNumber + advancing) % U64)
        else some (segmentNum, timestamp, blockNumber)

/-- Phase 2 of `Peek`: the clamping of a value against the batch bounds,
with the lower bound checked first as in the code. -/
def clampLowHigh (x lo hi : Nat) : Nat :=
  if x < lo then lo else if x > hi then hi else x

/-- The synthesized `RequestId` for a non-signed-tx L2 message: byte 0 is
`1 << 6`, bytes 16-23 the batch position, bytes 24-31 the segment index. -/
def requestIdBytes (pos segIdx : Nat) : List Nat :=
  0x40 :: (List.replicate 15 0 ++ (be 8 pos ++ be 8 segIdx))

/-- The batch-lookup-and-cache step at the top of `Peek`: reuse the cached
parse when its position matches, else parse the backend's current batch and
fill the cache.  `none` models the parse panic. -/
def cacheLookup (decompress : List Nat → List Nat) (r : MuxState)
    (b : Backend) : Option (SeqMessage × MuxState) :=
  match r.cache with
  | some m =>
    if r.cachePosition = b.seqPosition then some (m, r)
    else
      match parseSequencerMessage decompress (b.batches.getD b.seqPosition []) with
      | none => none
      | some m2 => some (m2, { r with cache := some m2, cachePosition := b.seqPosition })
  | none =>
    match parseSequencerMessage decompress (b.batches.getD b.seqPosition []) with
    | none => none
    | some m2 => some (m2, { r with cache := some m2, cachePosition := b.seqPosition })

/-- `Peek` from inbox.go.  The outer `none` models non-returning executions
(the parse panic and the Phase-1 infinite loop); otherwise the result is the
returned value (message or error) together with the updated multiplexer
state.  The backend is not mutated by `Peek`. -/
def peek (decompress : List Nat → List Nat) (r : MuxState) (b : Backend) :
    Option (Except PeekError MessageWithMetadata × MuxState) :=
  match cacheLookup decompress r b with
  | none => none
  | some (seqMsg, r1) =>
    match phase1 seqMsg.segments (seqMsg.segments.length + 1)
        b.posWithinMessage 0 0 with
    | none => none
    | some (segmentNum, ts0, bn0) =>
      let timestamp := clampLowHigh ts0 seqMsg.minTimestamp seqMsg.maxTimestamp
      let blockNumber := clampLowHigh bn0 seqMsg.minL1Block seqMsg.maxL1Block
      if segmentNum ≥ seqMsg.segments.length then
        if r1.delayedMessagesRead < seqMsg.afterDelayedMessages then
          let data := b.delayed.getD r1.delayedMessagesRead []
          let endOfMessage :=
            (r1.delayedMessagesRead + 1) % U64 ≥ seqMsg.afterDelayedMessages
          let r2 := { r1 with advanceAction :=
            if endOfMessage then .message else .delayedMessage }
          some (.ok
            { message := .delayedParsed data
              mustEndBlock := endOfMessage
              delayedMessagesRead := (r1.delayedMessagesRead + 1) % U64 }, r2)
        else
          some (.error .endOfSequencerMessage,
            { r1 with advanceAction := .message })
      else
        let endOfMessage := segmentNum + 1 ≥ seqMsg.segments.length
        let r2 :=
          if endOfMessage then { r1 with advanceAction := .message }
          else { r1 with advanceAction := .segment,
                         advanceSegmentTo := segmentNum + 1 }
        let segment := seqMsg.segments.getD segmentNum []
        if segment.length = 0 then some (.error .emptySegment, r2)
        else
          let segmentKind := segment.headD 0
          if segmentKind = 0 then
            -- inbox.go copies into blockNumberHash twice: first the block
            -- number, then the timestamp; timestampHash is never written.
            let blockNumberHash := be 32 blockNumber
            let blockNumberHash := be 32 timestamp
            let timestampHash := List.replicate 32 0
            let requestId :=
              if segment.length < 2 ∨ segment.getD 1 0 ≠ L2MessageKind_SignedTx
              then requestIdBytes b.seqPosition segmentNum
              else List.replicate 32 0
            some (.ok
              { message := .l2
                  { kind := L1MessageType_L2Message
                    sender := SequencerAddress
                    blockNumber := blockNumberHash
                    timestamp := timestampHash
                    requestId := requestId
                    gasPriceL1 := List.replicate 32 0 }
                  (segment.drop 1)
                mustEndBlock := endOfMessage
                delayedMessagesRead := r1.delayedMessagesRead }, r2)
          else if segmentKind = 1 then
            match rlpDecodeUint (segment.drop 1) with
            | none => some (.error .rlpUintError, r2)
            | some reading =>
              let newRead := (r1.delayedMessagesRead + reading) % U64
              if newRead ≤ r1.delayedMessagesRead ∨
                  newRead > seqMsg.afterDelayedMessages then
                some (.error .badDelayedCount, r2)
              else
                let endOfSegment := (r1.delayedMessagesRead + 1) % U64 ≥ newRead
                let r3 :=
                  if endOfSegment then r2
                  else { r2 with advanceAction := .delayedMessage }
                let data := b.delayed.getD r1.delayedMessagesRead []
                some (.ok
                  { message := .delayedParsed data
                    mustEndBlock := endOfSegment
                    delayedMessagesRead := (r1.delayedMessagesRead + 1) % U64 }, r3)
          else some (.error (.badSegmentKind segmentKind), r2)

/-- The action-applying core of `Advance` (everything after the
`advanceAction == AdvanceUnknown` recovery).  `none` models the panics. -/
def advanceStep (r : MuxState) (b : Backend) : Option (MuxState × Backend) :=
  match r.advanceAction with
  | .unknown => none
  | .delayedMessage =>
    some ({ r with delayedMessagesRead := (r.delayedMessagesRead + 1) % U64
                   advanceAction := .unknown
                   advanceSegmentTo := 0 }, b)
  | .segment =>
    if r.advanceSegmentTo ≤ b.posWithinMessage then none
    else
      some ({ r with advanceAction := .unknown, advanceSegmentTo := 0 },
        { b with posWithinMessage := r.advanceSegmentTo })
  | .message =>
    some ({ r with cache := none
                   cachePosition := 0
                   advanceAction := .unknown
                   advanceSegmentTo := 0 },
      { b with seqPosition := b.seqPosition + 1, posWithinMessage := 0 })

/-- `Advance` from inbox.go: if no action is recorded, run `Peek` once, then
apply the recorded action. -/
def advance (decompress : List Nat → List Nat) (r : MuxState) (b : Backend) :
    Option (MuxState × Backend) :=
  match r.advanceAction with
  | .unknown =>
    match peek decompress r b with
    | none => none
    | some (_, r1) => advanceStep r1 b
  | _ => advanceStep r b

/-- A driver operation in a `Peek`/`Advance` trace. -/
inductive Op where
  | peekOp
  | advanceOp
deriving DecidableEq, Repr

/-- Run a trace of operations.  A call that does not return (models a panic
or the Phase-1 loop) ends the trace with the state unchanged. -/
def runOps (decompress : List Nat → List Nat) :
    List Op → MuxState × Backend → MuxState × Backend
  | [], s => s
  | op :: rest, (r, b) =>
    match op with
    | .peekOp =>
      match peek decompress r b with
      | none => (r, b)
      | some (_, r1) => runOps decompress rest (r1, b)
    | .advanceOp =>
      match advance decompress r b with
      | none => (r, b)
      | some (r1, b1) => runOps decompress rest (r1, b1)

/-! ## Concrete scenario inputs (spec §8) -/

/-- The 40-byte batch header with the five given `uint64` fields. -/
def mkHeader (minTs maxTs minB maxB afterD : Nat) : List Nat :=
  be 8 minTs ++ be 8 maxTs ++ be 8 minB ++ be 8 maxB ++ be 8 afterD

/-- Scenario S1 batch: all-zero header except `afterDelayedMessages = 2`,
empty segment list, with identity compression. -/
def s1raw : List Nat := mkHeader 0 0 0 0 2 ++ rlpEncodeList []

/-- Scenario S1 backend: the S1 batch at every position the trace reaches,
two delayed messages `D0 = [0xD0]` and `D1 = [0xD1]`. -/
def s1backend : Backend :=
  { batches := [s1raw, s1raw], seqPosition := 0, posWithinMessage := 0
    delayed := [[0xd0], [0xd1]] }

/-- Scenario S2 batch: header `minTs=5, maxTs=9, minB=1, maxB=1,
afterDelayed=0`, one L2 segment `{0x00, 0xAA, 0xBB}`. -/
def s2raw : List Nat := mkHeader 5 9 1 1 0 ++ rlpEncodeList [[0x00, 0xaa, 0xbb]]

def s2backend : Backend :=
  { batches := [s2raw], seqPosition := 0, posWithinMessage := 0, delayed := [] }

/-- A batch whose single segment is the malformed timing segment `{0x02}`
(kind `AdvanceTimestamp`, empty payload, so the RLP decode fails). -/
def malformedTimingRaw : List Nat := mkHeader 0 0 0 0 0 ++ rlpEncodeList [[0x02]]

def malformedTimingBackend : Backend :=
  { batches := [malformedTimingRaw], seqPosition := 0, posWithinMessage := 0
    delayed := [] }

/-- Scenario S4 batch: single segment `{0x01, rlp(2)}`, `afterDelayed = 2`. -/
def s4raw : List Nat := mkHeader 0 0 0 0 2 ++ rlpEncodeList [[0x01, 0x02]]

def s4backend : Backend :=
  { batches := [s4raw], seqPosition := 0, posWithinMessage := 0
    delayed := [[0xd0], [0xd1]] }

/-- S4 variant whose `DelayedMessages` segment demands `reading = 0`
(`rlp(0) = 0x80`). -/
def s4zeroRaw : List Nat := mkHeader 0 0 0 0 2 ++ rlpEncodeList [[0x01, 0x80]]

def s4zeroBackend : Backend :=
  { batches := [s4zeroRaw], seqPosition := 0, posWithinMessage := 0
    delayed := [[0xd0], [0xd1]] }

/-- A malformed-tail batch for the parse-fallback claim: 40-byte header with
`afterDelayedMessages = 1`, then a tail that is not an RLP list. -/
def c6raw : List Nat := mkHeader 0 0 0 0 1 ++ [0x00]

def c6backend : Backend :=
  { batches := [c6raw], seqPosition := 0, posWithinMessage := 0
    delayed := [[0x99]] }

/-! ## Well-formedness predicates for trace reasoning -/

/-- Every byte of a Go `[]byte` is below 256. -/
def WFBytes (bs : List Nat) : Prop := ∀ x ∈ bs, x < 256

/-- Every batch held by the backend consists of bytes. -/
def WFBackend (b : Backend) : Prop := ∀ batch ∈ b.batches, WFBytes batch

/-- The cached parse, when present, has a `uint64` delayed-message bound. -/
def cacheOk (r : MuxState) : Prop :=
  ∀ m, r.cache = some m → m.afterDelayedMessages < U64

/-- The multiplexer-state invariant maintained by `Peek` and `Advance`:
the counter is a `uint64`, a recorded `DelayedMessage` action implies the
increment cannot wrap, and the cache is well formed. -/
def MuxInv (r : MuxState) : Prop :=
  r.delayedMessagesRead < U64 ∧
  (r.advanceAction = .delayedMessage → r.delayedMessagesRead + 1 < U64) ∧
  cacheOk r

/-! ## Theorems about the arithmetic helpers -/

/-- C7: the claim states `SaturatingSub(a, b)` equals the ideal difference
clamped into the `int64` range, and in particular
`SaturatingSub(0, MIN_I64) = MAX_I64`.  The code instead negates with Go's
wrapping negation, for which `-MIN_I64 = MIN_I64`, so
`SaturatingSub(0, MIN_I64) = MIN_I64`, while the clamped ideal difference is
`MAX_I64`.  This theorem evaluates the code at the failing input. -/
theorem saturatingSub_at_min_int64 :
    SaturatingSub 0 MinInt64 = MinInt64 ∧
    specSaturatingSub 0 MinInt64 = MaxInt64 ∧
    SaturatingSub 0 MinInt64 ≠ specSaturatingSub 0 MinInt64 := by
  refine ⟨by decide, by decide, by decide⟩

/-- Helper for C8: for `v = 2^63` the halving loop exits immediately,
because the saturated product gives `MAX_U64/2 = 2^63 - 1`, which is not
greater than `v`. -/
theorem sqrtHalve_at_2_63 : sqrtHalve (2 ^ 63) (2 ^ 63) = 2 ^ 63 := by
  rw [sqrtHalve]
  exact dif_neg (by decide)

/-- Helper for C8: the same early exit at `v = 2^63 - 1`. -/
theorem sqrtHalve_at_2_63_sub_one :
    sqrtHalve (2 ^ 63 - 1) (2 ^ 63 - 1) = 2 ^ 63 - 1 := by
  rw [sqrtHalve]
  exact dif_neg (by decide)

/-- Helper for C8: the halving loop on `v = 100` runs three times. -/
theorem sqrtHalve_at_100 : sqrtHalve 100 100 = 12 := by
  rw [sqrtHalve, dif_pos (by decide), sqrtHalve, dif_pos (by decide),
    sqrtHalve, dif_pos (by decide), sqrtHalve, dif_neg (by decide)]

/-- Helper for C8: the halving loop on `v = 1` exits immediately. -/
theorem sqrtHalve_at_1 : sqrtHalve 1 1 = 1 := by
  rw [sqrtHalve]
  exact dif_neg (by decide)

/-- C8: the claim (and the code's own comment) state that for every
`v ≤ 2^63` the result is within one of `⌊√v⌋`, i.e.
`|ApproxSquareRoot(v)² − v| ≤ 2·ApproxSquareRoot(v) + 1`.  The concrete
values at 0, 1 and 100 do hold, but at `v = 2^63` (and `v = 2^63 - 1`) the
halving guard `SaturatingUMul(a,a)/2 > v` is false at once — the saturated
product yields `(2^64-1)/2 = 2^63 - 1 ≤ v` — so four Newton iterations start
from `a = v` and return `2^59 + 4`, astronomically far from
`⌊√(2^63)⌋ = 3037000499`: the error bound is violated inside the claimed
range. -/
theorem approxSquareRoot_bound_fails_in_range :
    ApproxSquareRoot 0 = 0 ∧ ApproxSquareRoot 1 = 1 ∧
    ApproxSquareRoot 100 = 10 ∧
    ApproxSquareRoot (2 ^ 63) = 2 ^ 59 + 4 ∧
    ¬((2 ^ 59 + 4) * (2 ^ 59 + 4) - 2 ^ 63 ≤ 2 * (2 ^ 59 + 4) + 1) ∧
    ApproxSquareRoot (2 ^ 63 - 1) = 2 ^ 59 + 4 := by
  refine ⟨by decide, ?_, ?_, ?_, by decide, ?_⟩
  · rw [ApproxSquareRoot, if_neg (by decide), sqrtHalve_at_1]
    decide
  · rw [ApproxSquareRoot, if_neg (by decide), sqrtHalve_at_100]
    decide
  · rw [ApproxSquareRoot, if_neg (by decide), sqrtHalve_at_2_63]
    decide
  · rw [ApproxSquareRoot, if_neg (by decide), sqrtHalve_at_2_63_sub_one]
    decide

/-- C10: `Log2ceil(0) = 0` and `NextPowerOf2(0) = 1`, and for every `uint64`
`x ≥ 2^63`, `Log2ceil(x) = 64` and `NextPowerOf2(x) = (1 << 64) mod 2^64 = 0`,
which is not a power of two greater than the input. -/
theorem log2ceil_nextPowerOf2_edges :
    Log2ceil 0 = 0 ∧ NextPowerOf2 0 = 1 ∧
    ∀ x : Nat, 2 ^ 63 ≤ x → x < 2 ^ 64 →
      Log2ceil x = 64 ∧ NextPowerOf2 x = 0 ∧ ¬ x < NextPowerOf2 x := by
  refine ⟨by decide, by decide, ?_⟩
  intro x hlo hhi
  have hx0 : x ≠ 0 := by
    have : (0 : Nat) < 2 ^ 63 := by norm_num
    omega
  have hlog : Nat.log2 x = 63 := by
    rw [Nat.log2_eq_log_two]
    exact Nat.log_eq_of_pow_le_of_lt_pow hlo hhi
  have hLen : Len64 x = 64 := by simp [Len64, hx0, hlog]
  have hL2c : Log2ceil x = 64 := by simp [Log2ceil, LeadingZeros64, hLen]
  have hnp : NextPowerOf2 x = 0 := by
    simp [NextPowerOf2, hL2c, U64, Nat.shiftLeft_eq]
  exact ⟨hL2c, hnp, by simp [hnp]⟩

/-- Witness for C10 at `x = 2^63`. -/
theorem log2ceil_nextPowerOf2_edges_at_2_63 :
    Log2ceil (2 ^ 63) = 64 ∧ NextPowerOf2 (2 ^ 63) = 0 ∧
    ¬ (2 ^ 63 : Nat) < NextPowerOf2 (2 ^ 63) :=
  log2ceil_nextPowerOf2_edges.2.2 (2 ^ 63) (le_refl _) (by norm_num)

/-! ## Theorems about the multiplexer: concrete scenarios -/

/-- C1: the claim states the synthesized L2-message header carries
`BlockNumber = be32(clamped blockNumber)` and `Timestamp = be32(clamped
timestamp)` in two distinct fields, with `Timestamp = 5`, `BlockNumber = 1`
for scenario S2.  The code copies the timestamp encoding into
`blockNumberHash` a second time and never writes `timestampHash`, so for S2
it yields `BlockNumber = be32(5)` (the timestamp) and `Timestamp = 0`.
This theorem evaluates the code at the failing input. -/
theorem peek_s2_header_misassignment :
    (peek id (initialMux 0) s2backend).map Prod.fst =
      some (Except.ok
        { message := IncomingMessage.l2
            { kind := L1MessageType_L2Message
              sender := SequencerAddress
              blockNumber := be 32 5
              timestamp := List.replicate 32 0
              requestId := requestIdBytes 0 0
              gasPriceL1 := List.replicate 32 0 }
            [0xaa, 0xbb]
          mustEndBlock := true
          delayedMessagesRead := 0 }) ∧
    be 32 5 ≠ be 32 1 ∧ (List.replicate 32 0 : List Nat) ≠ be 32 5 := by
  refine ⟨by decide, by decide, by decide⟩

/-- C2: the claim states a timing segment whose RLP decode fails is skipped
and `Peek` still terminates.  In the code the failing branch executes
`continue` without incrementing `segmentNum`, so the loop re-examines the
same segment forever: on the batch whose only segment is `{0x02}`, Phase 1
returns no result for any amount of fuel, and `Peek` never returns. -/
theorem malformed_timing_segment_loops :
    (∀ fuel timestamp blockNumber,
      phase1 [[2]] fuel 0 timestamp blockNumber = none) ∧
    peek id (initialMux 0) malformedTimingBackend = none := by
  constructor
  · intro fuel
    induction fuel with
    | zero => intro ts bn; rfl
    | succ n ih => intro ts bn; simpa [phase1, rlpDecodeUint] using ih ts bn
  · decide

/-- C3 counterexample: in scenario S1 (batch header all zero except
`afterDelayedMessages = 2`, empty segment list, delayed messages
`D0 = [0xD0]`, `D1 = [0xD1]`), after two full `Peek`/`Advance` cycles the
third `Peek` does not return the `EndOfSequencerMessage` error as the claim
states. -/
theorem s1_third_peek_not_end_of_message :
    ((fun s => (peek id s.1 s.2).map Prod.fst)
        (runOps id [Op.peekOp, Op.advanceOp, Op.peekOp, Op.advanceOp]
          (initialMux 0, s1backend))) ≠
      some (Except.error PeekError.endOfSequencerMessage) := by decide

/-- C3 as amended: the two `Peek`/`Advance` cycles do yield
`(D0, false, 1)` then `(D1, true, 2)`, but the second `Peek` records a
batch-advance action, so the second `Advance` moves to the next batch while
leaving `delayedMessagesRead` at 1; the third `Peek` therefore reads from
the following batch (here an identical empty batch, yielding `(D1, true, 2)`
again) instead of returning `EndOfSequencerMessage`. -/
theorem s1_trace_amended :
    (peek id (initialMux 0) s1backend).map Prod.fst =
      some (Except.ok ⟨.delayedParsed [0xd0], false, 1⟩) ∧
    ((fun s => (peek id s.1 s.2).map Prod.fst)
        (runOps id [Op.peekOp, Op.advanceOp] (initialMux 0, s1backend))) =
      some (Except.ok ⟨.delayedParsed [0xd1], true, 2⟩) ∧
    (runOps id [Op.peekOp, Op.advanceOp, Op.peekOp, Op.advanceOp]
        (initialMux 0, s1backend)).1.delayedMessagesRead = 1 ∧
    (runOps id [Op.peekOp, Op.advanceOp, Op.peekOp, Op.advanceOp]
        (initialMux 0, s1backend)).2.seqPosition = 1 ∧
    ((fun s => (peek id s.1 s.2).map Prod.fst)
        (runOps id [Op.peekOp, Op.advanceOp, Op.peekOp, Op.advanceOp]
          (initialMux 0, s1backend))) =
      some (Except.ok ⟨.delayedParsed [0xd1], true, 2⟩) := by
  refine ⟨by decide, by decide, by decide, by decide, by decide⟩

/-! ## Trace lemmas: the multiplexer never decreases the delayed counter -/
theorem beVal_foldl_lt (bs : List Nat) (acc : Nat) (h : ∀ x ∈ bs, x < 256) :
    List.foldl (fun a b => a * 256 + b) acc bs < (acc + 1) * 256 ^ bs.length := by
  induction bs generalizing acc with
  | nil => simp
  | cons x xs ih =>
    simp only [List.foldl_cons, List.length_cons]
    have hx : x < 256 := h x (by simp)
    have h2 := ih (acc * 256 + x) (fun y hy => h y (by simp [hy]))
    have h3 : (acc * 256 + x + 1) * 256 ^ xs.length ≤ (acc + 1) * 256 ^ (xs.length + 1) := by
      have : acc * 256 + x + 1 ≤ (acc + 1) * 256 := by omega
      calc (acc * 256 + x + 1) * 256 ^ xs.length
          ≤ ((acc + 1) * 256) * 256 ^ xs.length := Nat.mul_le_mul_right _ this
        _ = (acc + 1) * 256 ^ (xs.length + 1) := by ring
    omega

theorem beVal_lt (bs : List Nat) (h : ∀ x ∈ bs, x < 256) :
    beVal bs < 256 ^ bs.length := by
  have := beVal_foldl_lt bs 0 h
  simpa [beVal] using this

theorem sliceU64_lt (data : List Nat) (i : Nat) (h : WFBytes data) :
    sliceU64 data i < U64 := by
  have hsub : ∀ x ∈ (data.drop i).take 8, x < 256 := by
    intro x hx
    exact h x (List.drop_subset i data (List.take_subset 8 _ hx))
  have h1 := beVal_lt _ hsub
  have h2 : ((data.drop i).take 8).length ≤ 8 := by
    simp [List.length_take]
  have h3 : (256 : Nat) ^ ((data.drop i).take 8).length ≤ 256 ^ 8 :=
    Nat.pow_le_pow_right (by omega) h2
  have : (256 : Nat) ^ 8 = U64 := by decide
  unfold sliceU64
  omega

theorem parse_after_lt (decompress : List Nat → List Nat) (data : List Nat)
    (m : SeqMessage) (hWF : WFBytes data)
    (h : parseSequencerMessage decompress data = some m) :
    m.afterDelayedMessages < U64 := by
  unfold parseSequencerMessage at h
  by_cases hl : data.length < 40
  · rw [if_pos hl] at h
    cases h
  · rw [if_neg hl] at h
    have := sliceU64_lt data 32 hWF
    injection h with h2
    rw [← h2]
    exact this

theorem getD_WF (b : Backend) (i : Nat) (hWF : WFBackend b) :
    WFBytes (b.batches.getD i []) := by
  cases hg : b.batches[i]? with
  | none => simp [List.getD, hg]; intro x hx; cases hx
  | some batch =>
    have : batch ∈ b.batches := List.getElem?_mem hg
    simpa [List.getD, hg] using hWF batch this

theorem cacheLookup_spec (decompress : List Nat → List Nat) (r : MuxState)
    (b : Backend) (m : SeqMessage) (r1 : MuxState)
    (h : cacheLookup decompress r b = some (m, r1)) :
    r1.delayedMessagesRead = r.delayedMessagesRead ∧
    r1.cache = some m ∧
    (WFBackend b → cacheOk r → m.afterDelayedMessages < U64) := by
  unfold cacheLookup at h
  split at h
  next m0 heq =>
    split at h
    next =>
      injection h with h1
      rw [Prod.mk.injEq] at h1
      obtain ⟨rfl, rfl⟩ := h1
      exact ⟨rfl, heq, fun _ hcok => hcok _ heq⟩
    next =>
      split at h
      next => cases h
      next m2 hparse =>
        injection h with h1
        rw [Prod.mk.injEq] at h1
        obtain ⟨rfl, rfl⟩ := h1
        exact ⟨rfl, rfl, fun hWF _ =>
          parse_after_lt decompress _ _ (getD_WF b b.seqPosition hWF) hparse⟩
  next heq =>
    split at h
    next => cases h
    next m2 hparse =>
      injection h with h1
      rw [Prod.mk.injEq] at h1
      obtain ⟨rfl, rfl⟩ := h1
      exact ⟨rfl, rfl, fun hWF _ =>
        parse_after_lt decompress _ _ (getD_WF b b.seqPosition hWF) hparse⟩

theorem peek_spec (decompress : List Nat → List Nat) (r : MuxState)
    (b : Backend) (res : Except PeekError MessageWithMetadata) (r' : MuxState)
    (hWF : WFBackend b) (hcok : cacheOk r)
    (h : peek decompress r b = some (res, r')) :
    r'.delayedMessagesRead = r.delayedMessagesRead ∧
    cacheOk r' ∧
    (r'.advanceAction = .delayedMessage → r'.delayedMessagesRead + 1 < U64) := by
  unfold peek at h
  split at h
  next => cases h
  next m r1 heq =>
    obtain ⟨hdmr1, hcache1, hbound⟩ := cacheLookup_spec decompress r b m r1 heq
    have hafter : m.afterDelayedMessages < U64 := hbound hWF hcok
    split at h
    next => cases h
    next segmentNum ts0 bn0 hph =>
      simp only [] at h
      repeat' split at h
      all_goals
        first
        | exact Option.noConfusion h
        | (injection h with h1
           rw [Prod.mk.injEq] at h1
           obtain ⟨hres, hr'⟩ := h1
           subst hr'
           refine ⟨hdmr1, ?_, ?_⟩
           · intro m' hm'
             simp only [hcache1, Option.some.injEq] at hm'
             exact hm' ▸ hafter
           · intro hact
             cases hact <;> (simp only [U64] at *) <;> omega)

theorem advanceStep_spec (r : MuxState) (b : Backend) (r' : MuxState)
    (b' : Backend) (h : advanceStep r b = some (r', b'))
    (hInv2 : r.advanceAction = .delayedMessage →
      r.delayedMessagesRead + 1 < U64) :
    (r'.delayedMessagesRead = r.delayedMessagesRead ∨
      r'.delayedMessagesRead = r.delayedMessagesRead + 1) ∧
    (r'.delayedMessagesRead = r.delayedMessagesRead + 1 →
      r.delayedMessagesRead + 1 < U64) ∧
    r'.advanceAction = .unknown ∧
    (∀ m, r'.cache = some m → r.cache = some m) ∧
    b'.batches = b.batches := by
  unfold advanceStep at h
  split at h
  next => cases h
  next hact =>
    injection h with h1
    rw [Prod.mk.injEq] at h1
    obtain ⟨hr', hb'⟩ := h1
    subst hr'
    subst hb'
    have hlt : r.delayedMessagesRead + 1 < U64 := hInv2 hact
    have hmod : (r.delayedMessagesRead + 1) % U64 = r.delayedMessagesRead + 1 :=
      Nat.mod_eq_of_lt hlt
    exact ⟨Or.inr hmod, fun _ => hlt, rfl, fun m hm => hm, rfl⟩
  next =>
    split at h
    next => cases h
    next =>
      injection h with h1
      rw [Prod.mk.injEq] at h1
      obtain ⟨hr', hb'⟩ := h1
      subst hr'
      subst hb'
      refine ⟨Or.inl rfl, fun he => ?_, rfl, fun m hm => hm, rfl⟩
      simp only at he
      omega
  next =>
    injection h with h1
    rw [Prod.mk.injEq] at h1
    obtain ⟨hr', hb'⟩ := h1
    subst hr'
    subst hb'
    refine ⟨Or.inl rfl, fun he => ?_, rfl, fun m hm => Option.noConfusion hm, rfl⟩
    simp only at he
    omega

theorem advance_spec (decompress : List Nat → List Nat) (r : MuxState)
    (b : Backend) (r' : MuxState) (b' : Backend)
    (hWF : WFBackend b) (hInv : MuxInv r)
    (h : advance decompress r b = some (r', b')) :
    (r'.delayedMessagesRead = r.delayedMessagesRead ∨
      r'.delayedMessagesRead = r.delayedMessagesRead + 1) ∧
    MuxInv r' ∧ b'.batches = b.batches := by
  obtain ⟨hlt, hInv2, hcok⟩ := hInv
  have main : ∀ r1 : MuxState,
      r1.delayedMessagesRead = r.delayedMessagesRead → cacheOk r1 →
      (r1.advanceAction = .delayedMessage →
        r1.delayedMessagesRead + 1 < U64) →
      advanceStep r1 b = some (r', b') →
      (r'.delayedMessagesRead = r.delayedMessagesRead ∨
        r'.delayedMessagesRead = r.delayedMessagesRead + 1) ∧
      MuxInv r' ∧ b'.batches = b.batches := by
    intro r1 hdmr1 hcok1 hact1 hstep
    obtain ⟨hd, hbound, hact', hcache', hbatch'⟩ :=
      advanceStep_spec r1 b r' b' hstep hact1
    rw [hdmr1] at hd hbound
    refine ⟨hd, ⟨?_, ?_, ?_⟩, hbatch'⟩
    · rcases hd with h2 | h2 <;> rw [h2]
      · exact hlt
      · exact hbound h2
    · intro hct
      rw [hact'] at hct
      exact absurd hct (by decide)
    · intro m hm
      exact hcok1 m (hcache' m hm)
  unfold advance at h
  split at h
  · split at h
    next => cases h
    next res r1 hp =>
      obtain ⟨hdmr1, hcok1, hact1⟩ := peek_spec decompress r b res r1 hWF hcok hp
      exact main r1 hdmr1 hcok1 (fun ha => hdmr1 ▸ hact1 ha) h
  · exact main r rfl hcok hInv2 h

theorem runOps_mono (decompress : List Nat → List Nat) (ops : List Op) :
    ∀ r b, WFBackend b → MuxInv r →
      r.delayedMessagesRead ≤
        (runOps decompress ops (r, b)).1.delayedMessagesRead := by
  induction ops with
  | nil => intro r b _ _; exact le_refl _
  | cons op rest ih =>
    intro r b hWF hInv
    cases op with
    | peekOp =>
      simp only [runOps]
      cases hp : peek decompress r b with
      | none => exact le_refl _
      | some pr =>
        obtain ⟨res, r1⟩ := pr
        obtain ⟨hdmr1, hcok1, hact1⟩ :=
          peek_spec decompress r b res r1 hWF hInv.2.2 hp
        have hInv1 : MuxInv r1 := ⟨hdmr1 ▸ hInv.1, hact1, hcok1⟩
        have := ih r1 b hWF hInv1
        rw [hdmr1] at this
        exact this
    | advanceOp =>
      simp only [runOps]
      cases ha : advance decompress r b with
      | none => exact le_refl _
      | some pr =>
        obtain ⟨r1, b1⟩ := pr
        obtain ⟨hd, hInv1, hbatch⟩ :=
          advance_spec decompress r b r1 b1 hWF hInv ha
        have hWF1 : WFBackend b1 := by
          unfold WFBackend
          rw [hbatch]
          exact hWF
        have := ih r1 b1 hWF1 hInv1
        show r.delayedMessagesRead ≤
          (runOps decompress rest (r1, b1)).1.delayedMessagesRead
        rcases hd with h2 | h2 <;> omega

/-- C9: across every legal `Peek`/`Advance` trace (from a state satisfying
the multiplexer invariant, over a backend holding byte data),
`DelayedMessagesRead()` is non-decreasing: `Peek` never changes
`delayedMessagesRead`, and `Advance` either leaves it unchanged or
increments it by exactly one. -/
theorem delayedMessagesRead_monotone (decompress : List Nat → List Nat)
    (r : MuxState) (b : Backend) (hWF : WFBackend b) (hInv : MuxInv r) :
    (∀ res r', peek decompress r b = some (res, r') →
      r'.delayedMessagesRead = r.delayedMessagesRead) ∧
    (∀ r' b', advance decompress r b = some (r', b') →
      r'.delayedMessagesRead = r.delayedMessagesRead ∨
      r'.delayedMessagesRead = r.delayedMessagesRead + 1) ∧
    (∀ ops : List Op, r.delayedMessagesRead ≤
      (runOps decompress ops (r, b)).1.delayedMessagesRead) :=
  ⟨fun res r' hp => (peek_spec decompress r b res r' hWF hInv.2.2 hp).1,
   fun r' b' ha => (advance_spec decompress r b r' b' hWF hInv ha).1,
   fun ops => runOps_mono decompress ops r b hWF hInv⟩

/-- Witness for C9: the scenario-S1 trace satisfies the invariant and the
counter does not decrease over two full cycles. -/
theorem delayedMessagesRead_monotone_witness :
    (initialMux 0).delayedMessagesRead ≤
      (runOps id [Op.peekOp, Op.advanceOp, Op.peekOp, Op.advanceOp]
        (initialMux 0, s1backend)).1.delayedMessagesRead :=
  (delayedMessagesRead_monotone id (initialMux 0) s1backend
      (by unfold WFBackend WFBytes; decide)
      ⟨by decide, fun hact => absurd hact (by decide),
        fun m hm => Option.noConfusion hm⟩).2.2
    [Op.peekOp, Op.advanceOp, Op.peekOp, Op.advanceOp]

/-! ## C5 and C6: segment-level contracts of `Peek` and the codec -/

/-- C5: when `Peek` reaches a `DelayedMessages` segment whose payload
RLP-decodes to `reading`, with `newRead = delayedMessagesRead + reading` the
call returns `BadDelayedCount` exactly when `newRead ≤ delayedMessagesRead`
(in particular when `reading = 0`) or `newRead > afterDelayedMessages`, and
otherwise yields the delayed message at index `delayedMessagesRead` with
`DelayedMessagesRead = delayedMessagesRead + 1` and
`MustEndBlock = (delayedMessagesRead + 1 ≥ newRead)`. -/
theorem peek_delayed_segment_count_check (decompress : List Nat → List Nat)
    (r : MuxState) (b : Backend)
    (seqMsg : SeqMessage) (payload : List Nat) (reading : Nat)
    (hparse : parseSequencerMessage decompress
      (b.batches.getD b.seqPosition []) = some seqMsg)
    (hcache : r.cache = none)
    (hpos : b.posWithinMessage < seqMsg.segments.length)
    (hseg : seqMsg.segments.getD b.posWithinMessage [] = 1 :: payload)
    (hrlp : rlpDecodeUint payload = some reading)
    (hdmr : r.delayedMessagesRead < U64)
    (hafter : seqMsg.afterDelayedMessages < U64)
    (hreading : reading < U64) :
    (r.delayedMessagesRead + reading ≤ r.delayedMessagesRead ∨
        r.delayedMessagesRead + reading > seqMsg.afterDelayedMessages →
      (peek decompress r b).map Prod.fst =
        some (Except.error PeekError.badDelayedCount)) ∧
    (r.delayedMessagesRead < r.delayedMessagesRead + reading ∧
        r.delayedMessagesRead + reading ≤ seqMsg.afterDelayedMessages →
      (peek decompress r b).map Prod.fst = some (Except.ok
        { message := .delayedParsed (b.delayed.getD r.delayedMessagesRead [])
          mustEndBlock :=
            r.delayedMessagesRead + 1 ≥ r.delayedMessagesRead + reading
          delayedMessagesRead := r.delayedMessagesRead + 1 })) := by
  have hdmr' : r.delayedMessagesRead < 2 ^ 64 := hdmr
  have hafter' : seqMsg.afterDelayedMessages < 2 ^ 64 := hafter
  have hreading' : reading < 2 ^ 64 := hreading
  have hph : phase1 seqMsg.segments (seqMsg.segments.length + 1)
      b.posWithinMessage 0 0 = some (b.posWithinMessage, 0, 0) := by
    rw [phase1, if_neg (by omega)]
    simp only [hseg]
    simp
  constructor
  · intro hcond
    have hwrap : (r.delayedMessagesRead + reading) % U64 ≤ r.delayedMessagesRead ∨
        (r.delayedMessagesRead + reading) % U64 > seqMsg.afterDelayedMessages := by
      show (r.delayedMessagesRead + reading) % 2 ^ 64 ≤ r.delayedMessagesRead ∨
        (r.delayedMessagesRead + reading) % 2 ^ 64 > seqMsg.afterDelayedMessages
      omega
    simp only [peek, cacheLookup, hcache, hparse, hph]
    rw [if_neg (by omega)]
    simp only [hseg, List.length_cons, List.headD_cons, List.drop_succ_cons,
      List.drop_zero, hrlp]
    rw [if_neg (by omega), if_pos hwrap]
    rfl
  · intro hcond
    have hone : (r.delayedMessagesRead + 1) % U64 = r.delayedMessagesRead + 1 := by
      show (r.delayedMessagesRead + 1) % 2 ^ 64 = r.delayedMessagesRead + 1
      omega
    have hnowrap : (r.delayedMessagesRead + reading) % U64 =
        r.delayedMessagesRead + reading := by
      show (r.delayedMessagesRead + reading) % 2 ^ 64 =
        r.delayedMessagesRead + reading
      omega
    have hnot : ¬((r.delayedMessagesRead + reading) % U64 ≤ r.delayedMessagesRead ∨
        (r.delayedMessagesRead + reading) % U64 > seqMsg.afterDelayedMessages) := by
      rw [hnowrap]
      omega
    simp only [peek, cacheLookup, hcache, hparse, hph]
    rw [if_neg (by omega)]
    simp only [hseg, List.length_cons, List.headD_cons, List.drop_succ_cons,
      List.drop_zero, hrlp]
    rw [if_neg (by omega), if_neg hnot]
    simp [hone, hnowrap]

/-- Witness for C5: on the S4 batch (`{0x01, rlp(2)}`, `afterDelayed = 2`)
the first `Peek` yields `(D0, false, 1)`, and on the variant demanding
`reading = 0` it returns `BadDelayedCount`. -/
theorem peek_delayed_segment_count_check_witness :
    (peek id (initialMux 0) s4backend).map Prod.fst = some (Except.ok
      { message := IncomingMessage.delayedParsed [0xd0]
        mustEndBlock := false
        delayedMessagesRead := 1 }) ∧
    (peek id (initialMux 0) s4zeroBackend).map Prod.fst =
      some (Except.error PeekError.badDelayedCount) := by
  constructor
  · have h := (peek_delayed_segment_count_check id (initialMux 0) s4backend
      ⟨0, 0, 0, 0, 2, [[1, 2]]⟩ [2] 2 (by decide) rfl (by decide) (by decide)
      (by decide) (by decide) (by decide) (by decide)).2 ⟨by decide, by decide⟩
    rw [h]
    decide
  · have h := (peek_delayed_segment_count_check id (initialMux 0) s4zeroBackend
      ⟨0, 0, 0, 0, 2, [[1, 0x80]]⟩ [0x80] 0 (by decide) rfl (by decide)
      (by decide) (by decide) (by decide) (by decide) (by decide)).1
      (Or.inl (by decide))
    exact h

/-- C6: on any input of at least 40 bytes whose tail does not decode as an
RLP list of byte strings, `parseSequencerMessage` returns the five header
fields read from the first 40 bytes with an empty segment list, and `Peek`
on such a batch falls through to the delayed-message drain (yielding the
next delayed message when the quota is open, else `EndOfSequencerMessage`). -/
theorem parse_malformed_segments_fallback (decompress : List Nat → List Nat)
    (data : List Nat) (hlen : 40 ≤ data.length)
    (hdec : rlpDecodeByteStringList
      ((decompress (data.drop 40)).take maxDecompressedLen) = none) :
    parseSequencerMessage decompress data = some
      { minTimestamp := sliceU64 data 0
        maxTimestamp := sliceU64 data 8
        minL1Block := sliceU64 data 16
        maxL1Block := sliceU64 data 24
        afterDelayedMessages := sliceU64 data 32
        segments := [] } ∧
    ∀ r b, r.cache = none → b.batches.getD b.seqPosition [] = data →
      ((r.delayedMessagesRead < sliceU64 data 32 →
        (peek decompress r b).map Prod.fst = some (Except.ok
          { message := .delayedParsed (b.delayed.getD r.delayedMessagesRead [])
            mustEndBlock :=
              (r.delayedMessagesRead + 1) % U64 ≥ sliceU64 data 32
            delayedMessagesRead := (r.delayedMessagesRead + 1) % U64 })) ∧
       (sliceU64 data 32 ≤ r.delayedMessagesRead →
        (peek decompress r b).map Prod.fst =
          some (Except.error PeekError.endOfSequencerMessage))) := by
  have hparse : parseSequencerMessage decompress data = some
      { minTimestamp := sliceU64 data 0
        maxTimestamp := sliceU64 data 8
        minL1Block := sliceU64 data 16
        maxL1Block := sliceU64 data 24
        afterDelayedMessages := sliceU64 data 32
        segments := [] } := by
    unfold parseSequencerMessage
    rw [if_neg (by omega), hdec]
    rfl
  refine ⟨hparse, ?_⟩
  intro r b hcache hbatch
  constructor
  · intro hlt
    simp only [peek, cacheLookup, hcache, hbatch, hparse, phase1]
    simp [hlt, Nat.not_lt.mpr hlt]
  · intro hge
    simp only [peek, cacheLookup, hcache, hbatch, hparse, phase1]
    simp [Nat.not_lt.mpr hge]

/-- Witness for C6: a batch whose tail is the single byte `0x00` (not an RLP
list) with `afterDelayedMessages = 1` drains the delayed message `[0x99]`. -/
theorem parse_malformed_segments_fallback_witness :
    (peek id (initialMux 0) c6backend).map Prod.fst = some (Except.ok
      { message := IncomingMessage.delayedParsed [0x99]
        mustEndBlock := true
        delayedMessagesRead := 1 }) := by
  have h := ((parse_malformed_segments_fallback id c6raw (by decide)
    (by decide)).2 (initialMux 0) c6backend rfl (by decide)).1 (by decide)
  rw [h]
  decide

/-! ## C4: the batch codec round-trip -/

theorem beVal_append_one (xs : List Nat) (b : Nat) :
    beVal (xs ++ [b]) = beVal xs * 256 + b := by
  unfold beVal
  rw [List.foldl_append]
  rfl

theorem be_length (k n : Nat) : (be k n).length = k := by
  induction k generalizing n with
  | zero => rfl
  | succ j ih => simp [be, ih]

theorem beVal_be (k n : Nat) (h : n < 256 ^ k) : beVal (be k n) = n := by
  induction k generalizing n with
  | zero =>
    simp [Nat.pow_zero] at h
    simp [be, beVal, h]
  | succ j ih =>
    have hdiv : n / 256 < 256 ^ j := by
      rw [Nat.div_lt_iff_lt_mul (by omega)]
      rw [Nat.pow_succ] at h
      omega
    rw [be, beVal_append_one, ih _ hdiv]
    omega

theorem beMin_eq_nil_iff (n : Nat) : beMin n = [] ↔ n = 0 := by
  constructor
  · intro h
    by_contra hn
    rw [beMin, dif_neg hn] at h
    exact List.append_ne_nil_of_right_ne_nil _ (by simp) h
  · intro h
    rw [h, beMin]
    rfl

theorem beVal_beMin (n : Nat) : beVal (beMin n) = n := by
  induction n using Nat.strong_induction_on with
  | _ n ih =>
    by_cases h : n = 0
    · rw [h, beMin]; rfl
    · rw [beMin, dif_neg h, beVal_append_one,
        ih (n / 256) (Nat.div_lt_self (Nat.pos_of_ne_zero h) (by omega))]
      omega

theorem beMin_length_le (k n : Nat) (h : n < 256 ^ k) :
    (beMin n).length ≤ k := by
  induction k generalizing n with
  | zero =>
    simp [Nat.pow_zero] at h
    simp [h, beMin]
  | succ j ih =>
    by_cases h0 : n = 0
    · simp [h0, beMin]
    · rw [beMin, dif_neg h0]
      have hdiv : n / 256 < 256 ^ j := by
        rw [Nat.div_lt_iff_lt_mul (by omega)]
        rw [Nat.pow_succ] at h
        omega
      simp only [List.length_append, List.length_singleton]
      have := ih _ hdiv
      omega

theorem beMin_headD_ne_zero (n : Nat) (h : n ≠ 0) : (beMin n).headD 0 ≠ 0 := by
  induction n using Nat.strong_induction_on with
  | _ n ih =>
    rw [beMin, dif_neg h]
    by_cases h2 : n / 256 = 0
    · rw [h2, (beMin_eq_nil_iff 0).mpr rfl]
      simp only [List.nil_append, List.headD_cons]
      omega
    · have hne : beMin (n / 256) ≠ [] := fun hh => h2 ((beMin_eq_nil_iff _).mp hh)
      obtain ⟨x, xs, hx⟩ := List.exists_cons_of_ne_nil hne
      have hih := ih (n / 256)
        (Nat.div_lt_self (Nat.pos_of_ne_zero h) (by omega)) h2
      rw [hx] at hih ⊢
      simpa using hih

theorem be_mem_lt (k n : Nat) : ∀ x ∈ be k n, x < 256 := by
  induction k generalizing n with
  | zero => intro x hx; cases hx
  | succ j ih =>
    intro x hx
    rw [be] at hx
    rcases List.mem_append.mp hx with h1 | h1
    · exact ih _ x h1
    · simp at h1
      omega

theorem beMin_mem_lt (n : Nat) : ∀ x ∈ beMin n, x < 256 := by
  induction n using Nat.strong_induction_on with
  | _ n ih =>
    intro x hx
    by_cases h : n = 0
    · rw [h, (beMin_eq_nil_iff 0).mpr rfl] at hx
      cases hx
    · rw [beMin, dif_neg h] at hx
      rcases List.mem_append.mp hx with h1 | h1
      · exact ih (n / 256) (Nat.div_lt_self (Nat.pos_of_ne_zero h) (by omega)) x h1
      · simp at h1
        omega

theorem rlpEncodeBytes_ne_nil (bb : List Nat) : rlpEncodeBytes bb ≠ [] := by
  unfold rlpEncodeBytes
  split
  · intro h
    next hcond => rw [h] at hcond; simp at hcond
  · split
    · simp
    · simp

theorem decodeBytesItem_encode (bb rest : List Nat)
    (hWF : ∀ x ∈ bb, x < 256) (hsmall : bb.length < 256 ^ 8) :
    decodeBytesItem (rlpEncodeBytes bb ++ rest) = some (bb, rest) := by
  unfold rlpEncodeBytes
  split
  next hcond =>
    obtain ⟨hlen1, hhead⟩ := hcond
    obtain ⟨x, hx⟩ : ∃ x, bb = [x] := by
      cases bb with
      | nil => simp at hlen1
      | cons y ys =>
        cases ys with
        | nil => exact ⟨y, rfl⟩
        | cons z zs => simp at hlen1
    subst hx
    simp only [List.headD_cons] at hhead
    simp only [List.cons_append, List.nil_append]
    simp only [decodeBytesItem]
    rw [if_pos hhead]
  next hcond1 =>
    split
    next hle =>
      simp only [List.cons_append]
      simp only [decodeBytesItem]
      rw [if_neg (by omega)]
      rw [if_pos (by omega)]
      have hsz : 0x80 + bb.length - 0x80 = bb.length := by omega
      rw [hsz]
      rw [if_neg (by
        rw [List.length_append]
        omega)]
      rw [if_neg (by
        intro hc
        obtain ⟨h1, h2⟩ := hc
        apply hcond1
        cases bb with
        | nil => simp at h1
        | cons y ys =>
          cases ys with
          | nil =>
            simp only [List.length_cons, List.length_nil, true_and]
            simp only [List.cons_append, List.headD_cons] at h2
            simp only [List.headD_cons]
            omega
          | cons z zs => simp at h1)]
      rw [List.take_left, List.drop_left]
    next hgt =>
      have hne : beMin bb.length ≠ [] := by
        rw [Ne, beMin_eq_nil_iff]
        omega
      have hL : (beMin bb.length).length ≤ 8 := beMin_length_le 8 _ hsmall
      have hL1 : 1 ≤ (beMin bb.length).length := by
        cases hb : beMin bb.length with
        | nil => exact absurd hb hne
        | cons y ys => simp
      simp only [List.cons_append]
      simp only [decodeBytesItem]
      rw [if_neg (by omega), if_neg (by omega), if_pos (by omega)]
      have hsz : 0xb7 + (beMin bb.length).length - 0xb7 =
          (beMin bb.length).length := by omega
      rw [hsz]
      rw [List.append_assoc]
      rw [if_neg (by
        rw [List.length_append]
        omega)]
      rw [List.take_left, List.drop_left]
      rw [if_neg (beMin_headD_ne_zero _ (by omega))]
      rw [beVal_beMin]
      rw [if_neg (by omega)]
      rw [if_neg (by
        rw [List.length_append]
        omega)]
      rw [List.take_left, List.drop_left]

theorem length_le_flatten_length (items : List (List Nat)) :
    items.length ≤ ((items.map rlpEncodeBytes).flatten).length := by
  induction items with
  | nil => simp
  | cons bb tl ih =>
    simp only [List.map_cons, List.flatten_cons, List.length_append,
      List.length_cons]
    have h1 : 1 ≤ (rlpEncodeBytes bb).length := by
      cases hb : rlpEncodeBytes bb with
      | nil => exact absurd hb (rlpEncodeBytes_ne_nil bb)
      | cons y ys => simp
    omega

theorem decodeItems_encode (items : List (List Nat)) (fuel : Nat)
    (hWF : ∀ seg ∈ items, ∀ x ∈ seg, x < 256)
    (hsmall : ∀ seg ∈ items, seg.length < 256 ^ 8)
    (hfuel : items.length ≤ fuel) :
    decodeItems fuel ((items.map rlpEncodeBytes).flatten) = some items := by
  induction items generalizing fuel with
  | nil => cases fuel <;> rfl
  | cons bb tl ih =>
    obtain ⟨f, rfl⟩ : ∃ f, fuel = f + 1 := by
      cases fuel with
      | zero => simp at hfuel
      | succ f => exact ⟨f, rfl⟩
    simp only [List.map_cons, List.flatten_cons]
    have henc := decodeBytesItem_encode bb ((tl.map rlpEncodeBytes).flatten)
      (hWF bb (by simp)) (hsmall bb (by simp))
    obtain ⟨hd, tl', hcons⟩ :=
      List.exists_cons_of_ne_nil (rlpEncodeBytes_ne_nil bb)
    rw [hcons] at henc ⊢
    simp only [List.cons_append]
    simp only [decodeItems]
    rw [show decodeBytesItem (hd :: (tl' ++ (tl.map rlpEncodeBytes).flatten)) =
      some (bb, (tl.map rlpEncodeBytes).flatten) from by
        simpa using henc]
    show Option.map (fun x => bb :: x)
      (decodeItems f ((tl.map rlpEncodeBytes).flatten)) = some (bb :: tl)
    rw [ih f (fun seg hs => hWF seg (by simp [hs]))
      (fun seg hs => hsmall seg (by simp [hs])) (by simp at hfuel; omega)]
    rfl

theorem rlpDecodeList_encode (items : List (List Nat))
    (hWF : ∀ seg ∈ items, ∀ x ∈ seg, x < 256)
    (hsmall : ∀ seg ∈ items, seg.length < 256 ^ 8)
    (hplen : ((items.map rlpEncodeBytes).flatten).length < 256 ^ 8) :
    rlpDecodeByteStringList (rlpEncodeList items) = some items := by
  simp only [rlpEncodeList]
  split
  next hle =>
    simp only [rlpDecodeByteStringList]
    rw [if_neg (by omega), if_pos (by omega)]
    have hsz : 0xc0 + ((items.map rlpEncodeBytes).flatten).length - 0xc0 =
        ((items.map rlpEncodeBytes).flatten).length := by omega
    rw [hsz]
    rw [if_neg (by omega)]
    rw [List.take_length]
    exact decodeItems_encode items _ hWF hsmall (length_le_flatten_length items)
  next hgt =>
    have hne : beMin ((items.map rlpEncodeBytes).flatten).length ≠ [] := by
      rw [Ne, beMin_eq_nil_iff]
      omega
    have hL : (beMin ((items.map rlpEncodeBytes).flatten).length).length ≤ 8 :=
      beMin_length_le 8 _ hplen
    have hL1 : 1 ≤ (beMin ((items.map rlpEncodeBytes).flatten).length).length := by
      cases hb : beMin ((items.map rlpEncodeBytes).flatten).length with
      | nil => exact absurd hb hne
      | cons y ys => simp
    simp only [rlpDecodeByteStringList]
    rw [if_neg (by omega), if_neg (by omega)]
    have hsz : 0xf7 + (beMin ((items.map rlpEncodeBytes).flatten).length).length
        - 0xf7 =
        (beMin ((items.map rlpEncodeBytes).flatten).length).length := by omega
    rw [hsz]
    rw [if_neg (by
      rw [List.length_append]
      omega)]
    rw [List.take_left, List.drop_left]
    rw [if_neg (beMin_headD_ne_zero _ (by omega))]
    rw [beVal_beMin]
    rw [if_neg (by omega)]
    rw [if_neg (by omega)]
    rw [List.take_length]
    exact decodeItems_encode items _ hWF hsmall (length_le_flatten_length items)

theorem length_le_rlpEncodeBytes (bb : List Nat) :
    bb.length ≤ (rlpEncodeBytes bb).length := by
  unfold rlpEncodeBytes
  split
  · exact le_refl _
  · split <;> simp
    all_goals omega

theorem encLength_le_flatten (bb : List Nat) (items : List (List Nat))
    (h : bb ∈ items) :
    (rlpEncodeBytes bb).length ≤ ((items.map rlpEncodeBytes).flatten).length := by
  induction items with
  | nil => cases h
  | cons hd tl ih =>
    simp only [List.map_cons, List.flatten_cons, List.length_append]
    rcases List.mem_cons.mp h with h1 | h1
    · rw [h1]
      omega
    · have := ih h1
      omega

theorem payload_lt_encList (items : List (List Nat)) :
    ((items.map rlpEncodeBytes).flatten).length < (rlpEncodeList items).length := by
  simp only [rlpEncodeList]
  split <;> simp
  all_goals omega

/-- C4: for every well-formed `SequencerMessage` (uint64 header fields,
byte-valued segments) whose RLP-encoded segment list fits the 16 MiB cap,
and any compressor/decompressor pair that round-trips on that encoding (the
brotli contract), decoding the encoder's output yields an equal record:
`parseSequencerMessage(m.Encode()) = m`. -/
theorem encode_parse_roundtrip (compress decompress : List Nat → List Nat)
    (m : SeqMessage)
    (h1 : m.minTimestamp < U64) (h2 : m.maxTimestamp < U64)
    (h3 : m.minL1Block < U64) (h4 : m.maxL1Block < U64)
    (h5 : m.afterDelayedMessages < U64)
    (hWF : ∀ seg ∈ m.segments, ∀ x ∈ seg, x < 256)
    (hcomp : decompress (compress (rlpEncodeList m.segments)) =
      rlpEncodeList m.segments)
    (hsize : (rlpEncodeList m.segments).length ≤ maxDecompressedLen) :
    parseSequencerMessage decompress (m.Encode compress) = some m := by
  obtain ⟨f1, f2, f3, f4, f5, segs⟩ := m
  simp only at h1 h2 h3 h4 h5 hWF hcomp hsize
  have hU : U64 = 256 ^ 8 := by decide
  rw [hU] at h1 h2 h3 h4 h5
  have hmax : maxDecompressedLen < 256 ^ 8 := by decide
  have hplen : ((segs.map rlpEncodeBytes).flatten).length < 256 ^ 8 := by
    have := payload_lt_encList segs
    omega
  have hsmall : ∀ seg ∈ segs, seg.length < 256 ^ 8 := by
    intro seg hs
    have ha := length_le_rlpEncodeBytes seg
    have hb := encLength_le_flatten seg segs hs
    omega
  have htake8 : ∀ (a : Nat) (rest : List Nat), (be 8 a ++ rest).take 8 = be 8 a :=
    fun a rest => List.take_left' (be_length 8 a)
  have hdrop8 : ∀ (a : Nat) (rest : List Nat), (be 8 a ++ rest).drop 8 = rest :=
    fun a rest => List.drop_left' (be_length 8 a)
  have hdropStep : ∀ (a : Nat) (rest : List Nat) (k : Nat),
      (be 8 a ++ rest).drop (8 + k) = rest.drop k := by
    intro a rest k
    have h8 := be_length 8 a
    calc (be 8 a ++ rest).drop (8 + k)
        = (be 8 a ++ rest).drop ((be 8 a).length + k) := by rw [h8]
      _ = rest.drop k := List.drop_append k
  have hslice0 : ∀ (a : Nat) (rest : List Nat), a < 256 ^ 8 →
      sliceU64 (be 8 a ++ rest) 0 = a := by
    intro a rest ha
    unfold sliceU64
    rw [List.drop_zero, htake8, beVal_be 8 a ha]
  have hsliceStep8 : ∀ (a : Nat) (rest : List Nat),
      sliceU64 (be 8 a ++ rest) 8 = sliceU64 rest 0 := by
    intro a rest
    unfold sliceU64
    rw [hdrop8, List.drop_zero]
  have hsliceStep : ∀ (a k : Nat) (rest : List Nat),
      sliceU64 (be 8 a ++ rest) (8 + k) = sliceU64 rest k := by
    intro a k rest
    unfold sliceU64
    rw [hdropStep]
  simp only [SeqMessage.Encode, List.append_assoc]
  have hlen40 : 40 ≤ (be 8 f1 ++ (be 8 f2 ++ (be 8 f3 ++ (be 8 f4 ++ (be 8 f5 ++
      compress (rlpEncodeList segs)))))).length := by
    simp [be_length]
    omega
  unfold parseSequencerMessage
  rw [if_neg (by omega)]
  have hs0 : sliceU64 (be 8 f1 ++ (be 8 f2 ++ (be 8 f3 ++ (be 8 f4 ++ (be 8 f5 ++
      compress (rlpEncodeList segs)))))) 0 = f1 := hslice0 _ _ h1
  have hs8 : sliceU64 (be 8 f1 ++ (be 8 f2 ++ (be 8 f3 ++ (be 8 f4 ++ (be 8 f5 ++
      compress (rlpEncodeList segs)))))) 8 = f2 := by
    rw [hsliceStep8]
    exact hslice0 _ _ h2
  have hs16 : sliceU64 (be 8 f1 ++ (be 8 f2 ++ (be 8 f3 ++ (be 8 f4 ++ (be 8 f5 ++
      compress (rlpEncodeList segs)))))) 16 = f3 := by
    rw [show (16 : Nat) = 8 + 8 from rfl, hsliceStep, hsliceStep8]
    exact hslice0 _ _ h3
  have hs24 : sliceU64 (be 8 f1 ++ (be 8 f2 ++ (be 8 f3 ++ (be 8 f4 ++ (be 8 f5 ++
      compress (rlpEncodeList segs)))))) 24 = f4 := by
    rw [show (24 : Nat) = 8 + 16 from rfl, hsliceStep,
      show (16 : Nat) = 8 + 8 from rfl, hsliceStep, hsliceStep8]
    exact hslice0 _ _ h4
  have hs32 : sliceU64 (be 8 f1 ++ (be 8 f2 ++ (be 8 f3 ++ (be 8 f4 ++ (be 8 f5 ++
      compress (rlpEncodeList segs)))))) 32 = f5 := by
    rw [show (32 : Nat) = 8 + 24 from rfl, hsliceStep,
      show (24 : Nat) = 8 + 16 from rfl, hsliceStep,
      show (16 : Nat) = 8 + 8 from rfl, hsliceStep, hsliceStep8]
    exact hslice0 _ _ h5
  have hd40 : (be 8 f1 ++ (be 8 f2 ++ (be 8 f3 ++ (be 8 f4 ++ (be 8 f5 ++
      compress (rlpEncodeList segs)))))).drop 40 = compress (rlpEncodeList segs) := by
    rw [show (40 : Nat) = 8 + 32 from rfl, hdropStep,
      show (32 : Nat) = 8 + 24 from rfl, hdropStep,
      show (24 : Nat) = 8 + 16 from rfl, hdropStep,
      show (16 : Nat) = 8 + 8 from rfl, hdropStep, hdrop8]
  rw [hs0, hs8, hs16, hs24, hs32, hd40, hcomp]
  rw [List.take_of_length_le hsize]
  rw [rlpDecodeList_encode segs hWF hsmall hplen]
  rfl

/-- Witness for C4: a concrete batch with three segments round-trips under
the identity compressor. -/
theorem encode_parse_roundtrip_witness :
    parseSequencerMessage id
      (SeqMessage.Encode id ⟨1, 2, 3, 4, 5, [[0xaa], [], [0, 1, 2]]⟩) =
      some ⟨1, 2, 3, 4, 5, [[0xaa], [], [0, 1, 2]]⟩ :=
  encode_parse_roundtrip id id ⟨1, 2, 3, 4, 5, [[0xaa], [], [0, 1, 2]]⟩
    (by decide) (by decide) (by decide) (by decide) (by decide)
    (by decide) rfl (by decide)
